import Mathlib

/-!
# 15-puzzle (`15game.c`): board, moves, solvability, shuffle, win detection

A shallow embedding of the game logic of `15game.c` and the properties proved about it.

* The C global `Tile board[4][4]` (`BOARD_SIZE` is 4) is modelled by the grid of its `value`
  fields, `Board = Fin 4 → Fin 4 → Int`, indexed `b y x` like `board[y][x]`.  The `x` and `y`
  fields of `Tile` are written once by `initialize_board` and never read by any function of
  the program, so they carry no state.
* The C global `int move_count` is a 32-bit counter; the pair of both globals is `State`.
* C `int` values are modelled by `Int`.  All arithmetic of the modelled functions on board
  values and coordinates stays far inside the 32-bit range.  The one quantity that can leave
  it is `move_count`: the increment `move_count++` is modelled with the two's-complement
  wrap-around of a 32-bit `int` (`wrap_int`), which is what the compiled program does at
  `INT_MAX` (ISO C leaves signed overflow undefined).
* `rand()` is modelled by a stream of draws `Nat → Nat` (results of `rand()` are never
  negative) together with the number of draws consumed so far; `srand(time(NULL))` only
  selects the stream.
* Loops over `0 .. BOARD_SIZE-1` are folds over `List.finRange 4`, in the order of the C loops.

The file first gives the definitions, then the lemmas, then the main results on `move_tile`,
`check_win`, `is_solvable` and `shuffle_board`.
-/

namespace Puzzle15

/-! ## Data model -/

/-- The `value` fields of `Tile board[BOARD_SIZE][BOARD_SIZE]`; `b y x` is `board[y][x].value`. -/
abbrev Board := Fin 4 → Fin 4 → Int

/-- The two globals the game logic reads and writes: `board` and `move_count`.  The field
`move_count` holds the value of the C `int`, a number in `[-2147483648, 2147483647]`. -/
structure State where
  board : Board
  move_count : Int

/-- The value a 32-bit two's-complement C `int` holds after a computation whose mathematical
result is `v`: `v` itself inside `[-2147483648, 2147483647]`, wrapped modulo `2^32`
otherwise. -/
def wrap_int (v : Int) : Int :=
  (v + 2147483648) % 4294967296 - 2147483648

/-- Read `board[y][x].value` for C `int` indices.  Every read in the modelled code is guarded
so that the indices are in `[0, 4)`; outside that range the model returns `0`. -/
def Board.read (b : Board) (y x : Int) : Int :=
  if h : (0 ≤ y ∧ y < 4) ∧ (0 ≤ x ∧ x < 4) then
    b ⟨y.toNat, by omega⟩ ⟨x.toNat, by omega⟩
  else 0

/-- The assignment `board[y][x].value = v` for C `int` indices.  Every write in the modelled
code has indices in `[0, 4)`; outside that range the model leaves the board alone. -/
def Board.write (b : Board) (y x : Int) (v : Int) : Board :=
  fun i j => if (i.val : Int) = y ∧ (j.val : Int) = x then v else b i j

/-- The sixteen cells `(y, x)` in the order the nested `for y … for x …` loops visit them. -/
def cells : List (Fin 4 × Fin 4) :=
  (List.finRange 4).flatMap (fun y => (List.finRange 4).map (fun x => (y, x)))

/-- All sixteen values of the board in row-major order. -/
def Board.vals (b : Board) : List Int :=
  cells.map (fun p => b p.1 p.2)

/-- Build a board from a row-major list of values (missing entries read as `0`). -/
def Board.ofList (l : List Int) : Board :=
  fun y x => l.getD (4 * y.val + x.val) 0

/-- The board holds each of `0..15` exactly once. -/
def ValidBoard (b : Board) : Prop :=
  ∀ v ∈ List.range 16, b.vals.count (v : Int) = 1

instance (b : Board) : Decidable (ValidBoard b) := by
  unfold ValidBoard; infer_instance

/-! ## `initialize_board` -/

/-- One iteration of the loop body of `initialize_board` at cell `(y, x)`:
`board[y][x].value = (x == 3 && y == 3) ? 0 : counter++`. -/
def initialize_step (acc : Board × Int) (p : Fin 4 × Fin 4) : Board × Int :=
  if p.2.val = 3 ∧ p.1.val = 3 then
    (acc.1.write p.1.val p.2.val 0, acc.2)
  else
    (acc.1.write p.1.val p.2.val acc.2, acc.2 + 1)

/-- The function `initialize_board`: overwrite every cell, `counter` starting at `1`. -/
def initialize_board (b : Board) : Board :=
  (cells.foldl initialize_step (b, 1)).1

/-! ## `move_tile` -/

/-- The search loop of `move_tile`: for every row `i`, scan `j = 0..3` up to the first cell
holding `0` (the `break` leaves only the inner loop), and record `(empty_x, empty_y) = (j, i)`.
Both start at `-1`. -/
def find_empty (b : Board) : Int × Int :=
  (List.finRange 4).foldl
    (fun e i =>
      match (List.finRange 4).find? (fun j => b i j == 0) with
      | some j => ((j.val : Int), (i.val : Int))
      | none => e)
    (-1, -1)

/-- The function `move_tile(x, y)`: the new state and the returned `int`.  The statement
`move_count++` is the 32-bit increment `wrap_int (move_count + 1)`. -/
def move_tile (s : State) (x y : Int) : State × Int :=
  if x < 0 ∨ x ≥ 4 ∨ y < 0 ∨ y ≥ 4 then
    (s, 0)
  else
    let empty_x := (find_empty s.board).1
    let empty_y := (find_empty s.board).2
    if ((x - empty_x).natAbs = 1 ∧ y = empty_y) ∨ ((y - empty_y).natAbs = 1 ∧ x = empty_x) then
      let b1 := s.board.write empty_y empty_x (s.board.read y x)
      let b2 := b1.write y x 0
      ({ board := b2, move_count := wrap_int (s.move_count + 1) }, 1)
    else
      (s, 0)

/-! ## `check_win` -/

/-- The nested loops of `check_win` over the remaining cells, with the running `counter`;
a mismatch returns `0` at once, falling off the end returns `1`. -/
def check_win_loop (b : Board) : List (Fin 4 × Fin 4) → Int → Int
  | [], _ => 1
  | p :: rest, counter =>
    if p.1.val = 3 ∧ p.2.val = 3 then
      if b p.1 p.2 ≠ 0 then 0 else check_win_loop b rest counter
    else
      if b p.1 p.2 ≠ counter then 0 else check_win_loop b rest (counter + 1)

/-- The function `check_win`. -/
def check_win (b : Board) : Int :=
  check_win_loop b cells 1

/-- The solved board: `1..15` in row-major order, `0` in the last cell. -/
def goal : Board :=
  Board.ofList [1, 2, 3, 4, 5, 6, 7, 8, 9, 10, 11, 12, 13, 14, 15, 0]

/-! ## `is_solvable` -/

/-- The flattening loop of `is_solvable`: the non-zero values in row-major order, that is
`flat_board[0..k)` (on a board with a zero cell `k ≤ 15`, the size of the C array). -/
def flatten (b : Board) : List Int :=
  cells.foldl (fun flat p => if b p.1 p.2 ≠ 0 then flat ++ [b p.1 p.2] else flat) []

/-- The inversion-counting double loop of `is_solvable`:
`for i < k, for j in i+1 .. k-1: if (flat[i] > flat[j]) inversions++`. -/
def count_inversions (flat : List Int) : Int :=
  (List.range flat.length).foldl
    (fun inversions i =>
      (List.range' (i + 1) (flat.length - (i + 1))).foldl
        (fun inversions j => if flat.getD i 0 > flat.getD j 0 then inversions + 1 else inversions)
        inversions)
    0

/-- The loop of `is_solvable` that looks for the row of the empty cell: for every row `y`, scan
`x = 0..3` up to the first zero and set `empty_row = y`.  The C variable is declared without an
initial value; `uninit` stands for whatever it holds when no cell is zero. -/
def find_empty_row (uninit : Int) (b : Board) : Int :=
  (List.finRange 4).foldl
    (fun empty_row y =>
      match (List.finRange 4).find? (fun x => b y x == 0) with
      | some _ => (y.val : Int)
      | none => empty_row)
    uninit

/-- The value `(inversions + empty_row) % 2` that `is_solvable` computes (C remainder). -/
def solvability_parity (uninit : Int) (b : Board) : Int :=
  Int.tmod (count_inversions (flatten b) + find_empty_row uninit b) 2

/-- The function `is_solvable`: `(inversions + empty_row) % 2 == 1`. -/
def is_solvable (uninit : Int) (b : Board) : Bool :=
  solvability_parity uninit b == 1

/-! ## `shuffle_board` -/

/-- The `switch (dir)` of `shuffle_board`: the cell `(new_x, new_y)` the empty cell moves to. -/
def shuffle_target (dir : Nat) (empty_x empty_y : Int) : Int × Int :=
  match dir with
  | 0 => if empty_y > 0 then (empty_x, empty_y - 1) else (empty_x, empty_y)
  | 1 => if empty_y < 3 then (empty_x, empty_y + 1) else (empty_x, empty_y)
  | 2 => if empty_x > 0 then (empty_x - 1, empty_y) else (empty_x, empty_y)
  | 3 => if empty_x < 3 then (empty_x + 1, empty_y) else (empty_x, empty_y)
  | _ => (empty_x, empty_y)

/-- The body of the random-walk loop of `shuffle_board` for one direction `dir`:
board, `empty_x`, `empty_y` after the iteration. -/
def shuffle_step (dir : Nat) (b : Board) (empty_x empty_y : Int) : Board × Int × Int :=
  let new_x := (shuffle_target dir empty_x empty_y).1
  let new_y := (shuffle_target dir empty_x empty_y).2
  if new_x ≠ empty_x ∨ new_y ≠ empty_y then
    let b1 := b.write empty_y empty_x (b.read new_y new_x)
    let b2 := b1.write new_y new_x 0
    (b2, new_x, new_y)
  else
    (b, empty_x, empty_y)

/-- The loop `for (int i = 0; i < 200 + rand() % 100; i++) { int dir = rand() % 4; … }`.
`rand` is the stream of results of `rand()`, `n` the number of draws consumed so far: the
loop test draws once every time it is evaluated, the body draws once. -/
def shuffle_loop (rand : Nat → Nat) (i n : Nat) (b : Board) (empty_x empty_y : Int) : Board :=
  if i < 200 + rand n % 100 then
    let dir := rand (n + 1) % 4
    let r := shuffle_step dir b empty_x empty_y
    shuffle_loop rand (i + 1) (n + 2) r.1 r.2.1 r.2.2
  else
    b
termination_by 300 - i
decreasing_by omega

/-- The function `shuffle_board`: the random walk from `(empty_x, empty_y) = (3, 3)`, then the
fix-up that swaps `board[0][0]` and `board[0][1]` when `is_solvable` fails and both are
non-zero. -/
def shuffle_board (rand : Nat → Nat) (uninit : Int) (b : Board) : Board :=
  let b1 := shuffle_loop rand 0 0 b 3 3
  if !is_solvable uninit b1 then
    if b1 0 0 ≠ 0 ∧ b1 0 1 ≠ 0 then
      let temp := b1 0 0
      (b1.write 0 0 (b1 0 1)).write 0 1 temp
    else
      b1
  else
    b1

/-! ## The board-click branch of the event loop in `main` -/

/-- The constant `TILE_SIZE`: size of each tile in pixels. -/
def TILE_SIZE : Int := 80

/-- The constant `BORDER`: border between tiles. -/
def BORDER : Int := 4

/-- The constant `WINDOW_PADDING`: padding around the game board. -/
def WINDOW_PADDING : Int := 20

/-- The constant `HEADER_HEIGHT`: height of the header area. -/
def HEADER_HEIGHT : Int := 60

/-- The cell `(tile_x, tile_y)` that the `ButtonPress` handler of `main` passes to `move_tile`
for a press at pixel `(x, y)`, or `none` when the press is in the header (`y < HEADER_HEIGHT`)
or the computed cell fails the range validation.  `/` of C is `Int.tdiv`. -/
def clicked_tile (x y : Int) : Option (Int × Int) :=
  if y < HEADER_HEIGHT then
    none
  else
    let tile_x := Int.tdiv (x - WINDOW_PADDING) (TILE_SIZE + BORDER)
    let tile_y := Int.tdiv (y - HEADER_HEIGHT - WINDOW_PADDING) (TILE_SIZE + BORDER)
    if tile_x ≥ 0 ∧ tile_x < 4 ∧ tile_y ≥ 0 ∧ tile_y < 4 then
      some (tile_x, tile_y)
    else
      none

/-! ## Auxiliary notions used in the statements and proofs -/

/-- The values `0..15` as C integers. -/
def allValues : List Int := (List.range 16).map Int.ofNat

/-- The cell `(ey, ex)` is the only cell holding `0`. -/
def EmptyAt (b : Board) (ey ex : Fin 4) : Prop :=
  ∀ i j, b i j = 0 ↔ (i = ey ∧ j = ex)

/-- The board after the tile at `(fy, fx)` has been slid into the empty cell `(ey, ex)`. -/
def slide (b : Board) (ey ex fy fx : Fin 4) : Board :=
  fun i j => if i = fy ∧ j = fx then 0 else if i = ey ∧ j = ex then b fy fx else b i j

/-- The adjacency test of `move_tile` on cells. -/
def Adjacent (ey ex fy fx : Fin 4) : Prop :=
  (((fx.val : Int) - (ex.val : Int)).natAbs = 1 ∧ (fy.val : Int) = (ey.val : Int)) ∨
  (((fy.val : Int) - (ey.val : Int)).natAbs = 1 ∧ (fx.val : Int) = (ex.val : Int))

instance (ey ex fy fx : Fin 4) : Decidable (Adjacent ey ex fy fx) := by
  unfold Adjacent; infer_instance

/-- A finite sequence of `move_tile(x, y)` calls, successful or not, one after another. -/
def run_moves (s : State) (calls : List (Int × Int)) : State :=
  calls.foldl (fun s c => (move_tile s c.1 c.2).1) s

/-- A finite sequence of legal slides: every call of the sequence must return `1`. -/
def slide_all (s : State) : List (Int × Int) → Option State
  | [] => some s
  | c :: rest =>
    if (move_tile s c.1 c.2).2 = 1 then slide_all (move_tile s c.1 c.2).1 rest else none

/-- The board `b` is reachable from the solved board by a finite sequence of legal slides. -/
def Reachable (b : Board) : Prop :=
  ∃ (calls : List (Int × Int)) (s : State),
    slide_all { board := goal, move_count := 0 } calls = some s ∧ s.board = b

/-- Number of inversions of a list: pairs of positions `i < j` with `l[i] > l[j]`. -/
def inv : List Int → Nat
  | [] => 0
  | a :: l => l.countP (fun c => c < a) + inv l

/-- One legal slide on the board level: the tile at a cell adjacent to the empty cell moves
into it. -/
def SlideStep (b c : Board) : Prop :=
  ∃ ey ex fy fx : Fin 4, ValidBoard b ∧ EmptyAt b ey ex ∧ Adjacent ey ex fy fx ∧
    c = slide b ey ex fy fx

/-- Finitely many legal slides lead from `b` to `c`. -/
def Slides (b c : Board) : Prop := Relation.ReflTransGen SlideStep b c

/-- Rename the tiles of a board by `f`. -/
def relabel (f : Int → Int) (b : Board) : Board := fun i j => f (b i j)

/-- Rotate three consecutive entries of a list, `a, b, c ↦ c, a, b`, starting at index `k`
(the list is left alone when fewer than three entries remain there). -/
def rot3 : Nat → List Int → List Int
  | 0, a :: b :: c :: rest => c :: a :: b :: rest
  | 0, l => l
  | _ + 1, [] => []
  | k + 1, x :: rest => x :: rot3 k rest

/-- One rotation of three consecutive entries. -/
def RotStep (l m : List Int) : Prop := ∃ k, m = rot3 k l

/-- The tiles of the solved board in row-major order. -/
def solvedTiles : List Int := [1, 2, 3, 4, 5, 6, 7, 8, 9, 10, 11, 12, 13, 14, 15]

/-- Exchange the last two entries of a list. -/
def swapLast2 : List Int → List Int
  | [] => []
  | [a] => [a]
  | [a, b] => [b, a]
  | x :: rest => x :: swapLast2 rest

/-- For `k < 13`, a closed tour of the empty cell starting and ending at row 3, column 3 (as
the list of `move_tile(x, y)` calls) whose net effect is to rotate the tiles at row-major
positions `k, k+1, k+2`. -/
def rotation_loop : Nat → List (Int × Int)
  | 0 => [(3, 2), (3, 1), (2, 1), (2, 0), (1, 0), (0, 0), (0, 1), (1, 1), (2, 1), (2, 0), (1, 0),
      (1, 1), (0, 1), (0, 0), (1, 0), (2, 0), (2, 1), (3, 1), (3, 2), (3, 3)]
  | 1 => [(3, 2), (3, 1), (3, 0), (2, 0), (1, 0), (1, 1), (2, 1), (3, 1), (3, 0), (2, 0), (2, 1),
      (1, 1), (1, 0), (2, 0), (3, 0), (3, 1), (3, 2), (3, 3)]
  | 2 => [(3, 2), (3, 1), (2, 1), (1, 1), (0, 1), (0, 0), (1, 0), (2, 0), (3, 0), (3, 1), (2, 1),
      (2, 0), (1, 0), (1, 1), (2, 1), (3, 1), (3, 0), (2, 0), (1, 0), (0, 0), (0, 1), (1, 1),
      (2, 1), (3, 1), (3, 2), (3, 3)]
  | 3 => [(3, 2), (3, 1), (2, 1), (2, 0), (3, 0), (3, 1), (2, 1), (1, 1), (0, 1), (0, 0), (1, 0),
      (2, 0), (2, 1), (1, 1), (1, 0), (0, 0), (0, 1), (1, 1), (2, 1), (3, 1), (3, 0), (2, 0),
      (2, 1), (3, 1), (3, 2), (3, 3)]
  | 4 => [(3, 2), (2, 2), (2, 1), (1, 1), (0, 1), (0, 2), (1, 2), (2, 2), (2, 1), (1, 1), (1, 2),
      (0, 2), (0, 1), (1, 1), (2, 1), (2, 2), (3, 2), (3, 3)]
  | 5 => [(3, 2), (3, 1), (2, 1), (1, 1), (1, 2), (2, 2), (3, 2), (3, 1), (2, 1), (2, 2), (1, 2),
      (1, 1), (2, 1), (3, 1), (3, 2), (3, 3)]
  | 6 => [(3, 2), (2, 2), (1, 2), (0, 2), (0, 1), (1, 1), (2, 1), (3, 1), (3, 2), (2, 2), (2, 1),
      (1, 1), (1, 2), (2, 2), (3, 2), (3, 1), (2, 1), (1, 1), (0, 1), (0, 2), (1, 2), (2, 2),
      (3, 2), (3, 3)]
  | 7 => [(3, 2), (2, 2), (2, 1), (3, 1), (3, 2), (2, 2), (1, 2), (0, 2), (0, 1), (1, 1), (2, 1),
      (2, 2), (1, 2), (1, 1), (0, 1), (0, 2), (1, 2), (2, 2), (3, 2), (3, 1), (2, 1), (2, 2),
      (3, 2), (3, 3)]
  | 8 => [(2, 3), (2, 2), (1, 2), (0, 2), (0, 3), (1, 3), (2, 3), (2, 2), (1, 2), (1, 3), (0, 3),
      (0, 2), (1, 2), (2, 2), (2, 3), (3, 3)]
  | 9 => [(3, 2), (2, 2), (1, 2), (1, 3), (2, 3), (3, 3), (3, 2), (2, 2), (2, 3), (1, 3), (1, 2),
      (2, 2), (3, 2), (3, 3)]
  | 10 => [(2, 3), (1, 3), (0, 3), (0, 2), (1, 2), (2, 2), (3, 2), (3, 3), (2, 3), (2, 2),
      (1, 2), (1, 3), (2, 3), (3, 3), (3, 2), (2, 2), (1, 2), (0, 2), (0, 3), (1, 3), (2, 3),
      (3, 3)]
  | 11 => [(2, 3), (2, 2), (3, 2), (3, 3), (2, 3), (1, 3), (0, 3), (0, 2), (1, 2), (2, 2),
      (2, 3), (1, 3), (1, 2), (0, 2), (0, 3), (1, 3), (2, 3), (3, 3), (3, 2), (2, 2), (2, 3),
      (3, 3)]
  | 12 => [(3, 2), (2, 2), (2, 3), (1, 3), (0, 3), (0, 2), (1, 2), (2, 2), (2, 3), (1, 3),
      (1, 2), (0, 2), (0, 3), (1, 3), (2, 3), (2, 2), (3, 2), (3, 3)]
  | _ => []

/-! ## Basic facts about boards -/

theorem cells_eq : cells =
    [(0,0),(0,1),(0,2),(0,3),(1,0),(1,1),(1,2),(1,3),
     (2,0),(2,1),(2,2),(2,3),(3,0),(3,1),(3,2),(3,3)] := by decide

theorem mem_cells (p : Fin 4 × Fin 4) : p ∈ cells := by
  revert p; decide

theorem nodup_cells : cells.Nodup := by decide

theorem vals_eq (b : Board) : b.vals =
    [b 0 0, b 0 1, b 0 2, b 0 3, b 1 0, b 1 1, b 1 2, b 1 3,
     b 2 0, b 2 1, b 2 2, b 2 3, b 3 0, b 3 1, b 3 2, b 3 3] := by
  simp [Board.vals, cells_eq]

theorem read_fin (b : Board) (y x : Fin 4) : b.read (y.val : Int) (x.val : Int) = b y x := by
  have hy := y.isLt
  have hx := x.isLt
  unfold Board.read
  rw [dif_pos (by omega)]
  simp

theorem write_fin (b : Board) (y x : Fin 4) (v : Int) (i j : Fin 4) :
    b.write (y.val : Int) (x.val : Int) v i j = if i = y ∧ j = x then v else b i j := by
  unfold Board.write
  simp [Fin.ext_iff]

theorem int_to_fin {x : Int} (h0 : 0 ≤ x) (h4 : x < 4) : ∃ f : Fin 4, (f.val : Int) = x :=
  ⟨⟨x.toNat, by omega⟩, by simp [Int.toNat_of_nonneg h0]⟩

theorem valid_iff_perm (b : Board) : ValidBoard b ↔ allValues.Perm b.vals := by
  constructor
  · intro h
    have hsub : allValues ⊆ b.vals := by
      intro v hv
      obtain ⟨n, hn, rfl⟩ := List.mem_map.1 hv
      have := h n hn
      exact List.count_pos_iff.1 (by simp only [Int.ofNat_eq_coe]; omega)
    have hnd : allValues.Nodup := by decide
    exact (List.subperm_of_subset hnd hsub).perm_of_length_le (by simp [vals_eq, allValues])
  · intro h v hv
    rw [← h.count_eq]
    revert v; decide

theorem valid_nodup {b : Board} (h : ValidBoard b) : b.vals.Nodup :=
  ((valid_iff_perm b).1 h).nodup_iff.1 (by decide)

theorem valid_inj {b : Board} (h : ValidBoard b) {i j i2 j2 : Fin 4}
    (e : b i j = b i2 j2) : i = i2 ∧ j = j2 := by
  have := List.inj_on_of_nodup_map (valid_nodup h) (mem_cells (i, j)) (mem_cells (i2, j2)) e
  simpa using this

theorem valid_range {b : Board} (h : ValidBoard b) (i j : Fin 4) : 0 ≤ b i j ∧ b i j < 16 := by
  have hm : b i j ∈ b.vals := List.mem_map.2 ⟨(i, j), mem_cells _, rfl⟩
  have := ((valid_iff_perm b).1 h).mem_iff.2 hm
  obtain ⟨n, hn, e⟩ := List.mem_map.1 this
  have := List.mem_range.1 hn
  simp only [Int.ofNat_eq_coe] at e
  omega

theorem valid_empty {b : Board} (h : ValidBoard b) : ∃ ey ex, EmptyAt b ey ex := by
  have h0 : (0 : Int) ∈ b.vals := ((valid_iff_perm b).1 h).mem_iff.1 (by decide)
  obtain ⟨p, _, hp⟩ := List.mem_map.1 h0
  refine ⟨p.1, p.2, fun i j => ⟨fun e => ?_, ?_⟩⟩
  · exact valid_inj h (e.trans hp.symm)
  · rintro ⟨rfl, rfl⟩; exact hp

theorem emptyAt_of_valid {b : Board} (h : ValidBoard b) {ey ex : Fin 4} (he : b ey ex = 0) :
    EmptyAt b ey ex := by
  intro i j
  constructor
  · intro e; exact valid_inj h (e.trans he.symm)
  · rintro ⟨rfl, rfl⟩; exact he

theorem find_empty_eq {b : Board} {ey ex : Fin 4} (he : EmptyAt b ey ex) :
    find_empty b = ((ex.val : Int), (ey.val : Int)) := by
  have H : ∀ i j, (b i j == 0) = decide (i = ey ∧ j = ex) := by
    intro i j
    by_cases h : i = ey ∧ j = ex
    · have e0 := (he i j).2 h
      rw [e0, decide_eq_true h]; rfl
    · have : b i j ≠ 0 := fun e => h ((he i j).1 e)
      simp [h, this]
  unfold find_empty
  simp only [H]
  clear H he
  revert ey ex
  decide

/-! ## `move_tile` in terms of cells -/

theorem wrap_int_of_range {v : Int} (h1 : -2147483648 ≤ v) (h2 : v ≤ 2147483647) :
    wrap_int v = v := by
  unfold wrap_int
  omega

theorem move_tile_out (s : State) (x y : Int) (h : ¬(0 ≤ x ∧ x < 4 ∧ 0 ≤ y ∧ y < 4)) :
    move_tile s x y = (s, 0) := by
  unfold move_tile
  rw [if_pos (by omega)]

theorem move_tile_fin (s : State) {ey ex : Fin 4} (he : EmptyAt s.board ey ex) (fy fx : Fin 4) :
    move_tile s (fx.val : Int) (fy.val : Int) =
      if Adjacent ey ex fy fx then
        ({ board := slide s.board ey ex fy fx, move_count := wrap_int (s.move_count + 1) }, 1)
      else (s, 0) := by
  have hy := fy.isLt
  have hx := fx.isLt
  unfold move_tile
  rw [if_neg (by omega), find_empty_eq he]
  simp only [read_fin]
  by_cases ha : Adjacent ey ex fy fx
  · have ha2 := ha
    unfold Adjacent at ha2
    rw [if_pos ha2, if_pos ha]
    congr 2
    funext i j
    simp only [write_fin, slide]
  · have ha2 := ha
    unfold Adjacent at ha2
    rw [if_neg ha2, if_neg ha]

theorem adjacent_iff (ey ex fy fx : Fin 4) :
    Adjacent ey ex fy fx ↔
      |(fx.val : Int) - (ex.val : Int)| + |(fy.val : Int) - (ey.val : Int)| = 1 := by
  unfold Adjacent
  rw [← Int.natCast_natAbs, ← Int.natCast_natAbs]
  omega

theorem adjacent_symm {ey ex fy fx : Fin 4} (h : Adjacent ey ex fy fx) :
    Adjacent fy fx ey ex := by
  unfold Adjacent at *
  omega

theorem adjacent_ne {ey ex fy fx : Fin 4} (h : Adjacent ey ex fy fx) :
    ¬(fy = ey ∧ fx = ex) := by
  unfold Adjacent at h
  rintro ⟨rfl, rfl⟩
  simp at h

theorem slide_emptyAt {b : Board} {ey ex fy fx : Fin 4} (he : EmptyAt b ey ex)
    (hne : ¬(fy = ey ∧ fx = ex)) : EmptyAt (slide b ey ex fy fx) fy fx := by
  intro i j
  unfold slide
  by_cases h1 : i = fy ∧ j = fx
  · simp [h1]
  · rw [if_neg h1]
    by_cases h2 : i = ey ∧ j = ex
    · rw [if_pos h2]
      have : b fy fx ≠ 0 := fun e => hne ((he fy fx).1 e)
      simp [h1, this]
    · rw [if_neg h2]
      have : b i j ≠ 0 := fun e => h2 ((he i j).1 e)
      simp [h1, this]

theorem slide_slide {b : Board} {ey ex fy fx : Fin 4} (he : b ey ex = 0) :
    slide (slide b ey ex fy fx) fy fx ey ex = b := by
  funext i j
  unfold slide
  by_cases h1 : i = ey ∧ j = ex
  · obtain ⟨rfl, rfl⟩ := h1
    by_cases h2 : i = fy ∧ j = fx
    · obtain ⟨rfl, rfl⟩ := h2
      simp [he]
    · simp [h2, he]
  · by_cases h2 : i = fy ∧ j = fx
    · obtain ⟨rfl, rfl⟩ := h2
      by_cases h3 : ey = i ∧ ex = j
      · obtain ⟨rfl, rfl⟩ := h3; simp at h1
      · simp [h1, h3]
    · simp [h1, h2]

/-- Sliding is composition of the board with the transposition of the two cells. -/
theorem slide_eq_comp_swap {b : Board} {ey ex fy fx : Fin 4} (he : b ey ex = 0) (i j : Fin 4) :
    slide b ey ex fy fx i j =
      b (Equiv.swap (ey, ex) (fy, fx) (i, j)).1 (Equiv.swap (ey, ex) (fy, fx) (i, j)).2 := by
  unfold slide
  by_cases h1 : i = fy ∧ j = fx
  · obtain ⟨rfl, rfl⟩ := h1
    simp [he]
  · by_cases h2 : i = ey ∧ j = ex
    · obtain ⟨rfl, rfl⟩ := h2
      simp [h1]
    · have e1 : (i, j) ≠ (ey, ex) := by simpa using h2
      have e2 : (i, j) ≠ (fy, fx) := by simpa using h1
      rw [Equiv.swap_apply_of_ne_of_ne e1 e2]
      simp [h1, h2]

theorem slide_vals_perm {b : Board} {ey ex fy fx : Fin 4} (he : b ey ex = 0) :
    (slide b ey ex fy fx).vals.Perm b.vals := by
  have e : (slide b ey ex fy fx).vals =
      (cells.map (Equiv.swap (ey, ex) (fy, fx))).map (fun p => b p.1 p.2) := by
    simp only [Board.vals, List.map_map]
    apply List.map_congr_left
    intro p _
    exact slide_eq_comp_swap he p.1 p.2
  rw [e]
  apply List.Perm.map
  apply (List.perm_ext_iff_of_nodup _ nodup_cells).2
  · intro p
    simp only [mem_cells, iff_true]
    exact List.mem_map.2 ⟨Equiv.swap (ey, ex) (fy, fx) p, mem_cells _, by simp⟩
  · exact nodup_cells.map (Equiv.injective _)

theorem slide_valid {b : Board} (hv : ValidBoard b) {ey ex fy fx : Fin 4} (he : b ey ex = 0) :
    ValidBoard (slide b ey ex fy fx) :=
  (valid_iff_perm _).2 (((valid_iff_perm b).1 hv).trans (slide_vals_perm he).symm)

/-- Every call of `move_tile` on a valid board either fails and leaves the state alone, or is
the slide of an adjacent cell `(fy, fx)` into the empty cell. -/
theorem move_tile_cases (s : State) {ey ex : Fin 4} (he : EmptyAt s.board ey ex) (x y : Int) :
    (move_tile s x y = (s, 0)) ∨
    ∃ fy fx : Fin 4, (fx.val : Int) = x ∧ (fy.val : Int) = y ∧ Adjacent ey ex fy fx ∧
      move_tile s x y =
        ({ board := slide s.board ey ex fy fx, move_count := wrap_int (s.move_count + 1) }, 1) := by
  by_cases hr : 0 ≤ x ∧ x < 4 ∧ 0 ≤ y ∧ y < 4
  · obtain ⟨fx, rfl⟩ := int_to_fin hr.1 hr.2.1
    obtain ⟨fy, rfl⟩ := int_to_fin hr.2.2.1 hr.2.2.2
    rw [move_tile_fin s he]
    by_cases ha : Adjacent ey ex fy fx
    · right
      exact ⟨fy, fx, rfl, rfl, ha, by rw [if_pos ha]⟩
    · left
      rw [if_neg ha]
  · left
    exact move_tile_out s x y hr

theorem move_tile_valid (s : State) (hv : ValidBoard s.board) (x y : Int) :
    ValidBoard (move_tile s x y).1.board := by
  obtain ⟨ey, ex, he⟩ := valid_empty hv
  rcases move_tile_cases s he x y with h | ⟨fy, fx, _, _, _, h⟩
  · rw [h]; exact hv
  · rw [h]; exact slide_valid hv ((he ey ex).2 ⟨rfl, rfl⟩)

/-! ## The loops of `is_solvable` in closed form -/

theorem flatten_fold (f : Fin 4 × Fin 4 → Int) (l : List (Fin 4 × Fin 4)) (acc : List Int) :
    l.foldl (fun flat p => if f p ≠ 0 then flat ++ [f p] else flat) acc =
      acc ++ (l.map f).filter (fun v => !decide (v = 0)) := by
  induction l generalizing acc with
  | nil => simp
  | cons p rest ih =>
    simp only [List.foldl_cons, List.map_cons]
    rw [ih]
    by_cases h : f p = 0
    · simp [h]
    · simp [h, List.filter_cons]

theorem flatten_eq (b : Board) : flatten b = b.vals.filter (fun v => !decide (v = 0)) := by
  unfold flatten Board.vals
  rw [flatten_fold (fun p => b p.1 p.2)]
  simp

theorem foldl_count (P : Nat → Prop) [DecidablePred P] (l : List Nat) (c : Int) :
    l.foldl (fun acc j => if P j then acc + 1 else acc) c = c + (l.countP (fun j => P j) : Nat) := by
  induction l generalizing c with
  | nil => simp
  | cons j rest ih =>
    simp only [List.foldl_cons]
    rw [ih]
    by_cases h : P j
    · simp [h, List.countP_cons]; omega
    · simp [h, List.countP_cons]

theorem foldl_add (g : Nat → Nat) (l : List Nat) (c : Int) :
    l.foldl (fun acc i => acc + (g i : Int)) c = c + ((l.map g).sum : Nat) := by
  induction l generalizing c with
  | nil => simp
  | cons i rest ih =>
    simp only [List.foldl_cons]
    rw [ih]
    simp; omega

/-- The number of `j` in `i+1 .. k-1` with `flat[i] > flat[j]`. -/
theorem count_inversions_sum (flat : List Int) :
    count_inversions flat =
      (((List.range flat.length).map (fun i =>
        (List.range' (i + 1) (flat.length - (i + 1))).countP
          (fun j => flat.getD i 0 > flat.getD j 0))).sum : Nat) := by
  unfold count_inversions
  have : ∀ (inversions : Int) (i : Nat),
      (List.range' (i + 1) (flat.length - (i + 1))).foldl
        (fun inversions j => if flat.getD i 0 > flat.getD j 0 then inversions + 1 else inversions)
        inversions =
      inversions + (((List.range' (i + 1) (flat.length - (i + 1))).countP
          (fun j => flat.getD i 0 > flat.getD j 0) : Nat) : Int) := by
    intro inversions i
    exact foldl_count (fun j => flat.getD i 0 > flat.getD j 0) _ inversions
  simp only [this]
  rw [foldl_add (fun i => (List.range' (i + 1) (flat.length - (i + 1))).countP
          (fun j => flat.getD i 0 > flat.getD j 0))]
  simp

theorem countP_range_getD (a : Int) (l : List Int) :
    (List.range' 1 l.length).countP (fun j => a > (a :: l).getD j 0) =
      l.countP (fun c => c < a) := by
  have e : List.range' 1 l.length = (List.range l.length).map (fun j => j + 1) := by
    rw [List.range'_eq_map_range]
    apply List.map_congr_left
    intro j _; omega
  rw [e, List.countP_map]
  have e2 : l = (List.range l.length).map (fun j => l.getD j 0) := by
    apply List.ext_getElem
    · simp
    · intro n h1 h2
      simp [List.getElem?_eq_getElem h1]
  conv_rhs => rw [e2, List.countP_map]
  apply List.countP_congr
  intro j _
  simp [Function.comp]

theorem count_inversions_eq_inv (flat : List Int) : count_inversions flat = (inv flat : Int) := by
  rw [count_inversions_sum]
  congr 1
  induction flat with
  | nil => simp [inv]
  | cons a l ih =>
    rw [inv, ← ih]
    simp only [List.length_cons]
    rw [List.range_succ_eq_map, List.map_cons, List.sum_cons, List.map_map]
    congr 1
    · have : l.length + 1 - (0 + 1) = l.length := by omega
      rw [this]
      exact countP_range_getD a l
    · congr 1
      apply List.map_congr_left
      intro i _
      simp only [Function.comp]
      have e : List.range' (i + 1 + 1) (l.length + 1 - (i + 1 + 1)) =
          (List.range' (i + 1) (l.length - (i + 1))).map (fun j => j + 1) := by
        have : l.length + 1 - (i + 1 + 1) = l.length - (i + 1) := by omega
        rw [this, List.range'_eq_map_range, List.range'_eq_map_range, List.map_map]
        apply List.map_congr_left
        intro j _; simp [Function.comp]; omega
      rw [e, List.countP_map]
      apply List.countP_congr
      intro j _
      simp [Function.comp]

/-! ## The shape of the row-major list under a slide -/

theorem vals_slide_down (b : Board) (ey ex fy : Fin 4) (h : fy.val = ey.val + 1) :
    ∃ A M B : List Int, M.length = 3 ∧
      b.vals = A ++ b ey ex :: (M ++ b fy ex :: B) ∧
      (slide b ey ex fy ex).vals = A ++ b fy ex :: (M ++ 0 :: B) := by
  refine ⟨b.vals.take (4 * ey.val + ex.val), (b.vals.drop (4 * ey.val + ex.val + 1)).take 3,
    b.vals.drop (4 * ey.val + ex.val + 5), ?_, ?_, ?_⟩
  · have := ey.isLt
    have := ex.isLt
    simp [vals_eq]
    omega
  · rw [vals_eq]
    fin_cases ey <;> fin_cases fy <;> simp at h <;> fin_cases ex <;> simp
  · rw [vals_eq, vals_eq]
    fin_cases ey <;> fin_cases fy <;> simp at h <;> fin_cases ex <;> simp [slide]

theorem vals_slide_right (b : Board) (ey ex fx : Fin 4) (h : fx.val = ex.val + 1) :
    ∃ A B : List Int,
      b.vals = A ++ b ey ex :: b ey fx :: B ∧
      (slide b ey ex ey fx).vals = A ++ b ey fx :: 0 :: B := by
  refine ⟨b.vals.take (4 * ey.val + ex.val), b.vals.drop (4 * ey.val + ex.val + 2), ?_, ?_⟩
  · rw [vals_eq]
    fin_cases ex <;> fin_cases fx <;> simp at h <;> fin_cases ey <;> simp
  · rw [vals_eq, vals_eq]
    fin_cases ex <;> fin_cases fx <;> simp at h <;> fin_cases ey <;> simp [slide]

/-! ## Inversions when one element jumps over a block -/

theorem inv_insert (M Y : List Int) (t : Int) :
    inv (M ++ t :: Y) = inv (M ++ Y) + M.countP (fun m => t < m) + Y.countP (fun c => c < t) := by
  induction M with
  | nil => simp [inv]; omega
  | cons m M ih =>
    simp only [List.cons_append, inv, ih, List.countP_append, List.countP_cons]
    by_cases h : t < m
    · simp [h]; omega
    · simp [h]; omega

theorem inv_jump (X M Y : List Int) (t : Int) :
    inv (X ++ (M ++ t :: Y)) + M.countP (fun m => m < t) =
      inv (X ++ t :: (M ++ Y)) + M.countP (fun m => t < m) := by
  induction X with
  | nil =>
    simp only [List.nil_append, inv, inv_insert, List.countP_append]
    omega
  | cons x X ih =>
    have e1 : inv (x :: X ++ (M ++ t :: Y)) =
        (X ++ (M ++ t :: Y)).countP (fun c => c < x) + inv (X ++ (M ++ t :: Y)) := rfl
    have e2 : inv (x :: X ++ t :: (M ++ Y)) =
        (X ++ t :: (M ++ Y)).countP (fun c => c < x) + inv (X ++ t :: (M ++ Y)) := rfl
    rw [e1, e2]
    simp only [List.countP_append, List.countP_cons]
    omega

theorem countP_lt_add_gt (M : List Int) (t : Int) (h : t ∉ M) :
    M.countP (fun m => m < t) + M.countP (fun m => t < m) = M.length := by
  induction M with
  | nil => simp
  | cons m M ih =>
    have hm : t ≠ m := fun e => h (by simp [e])
    have ih2 := ih (fun e => h (List.mem_cons_of_mem _ e))
    simp only [List.countP_cons, List.length_cons]
    by_cases h1 : m < t
    · have h2 : ¬ t < m := by omega
      simp [h1, h2]; omega
    · have h2 : t < m := by omega
      simp [h1, h2]; omega

theorem filter_ne_zero_of_not_mem (A : List Int) (h : (0 : Int) ∉ A) :
    A.filter (fun v => !decide (v = 0)) = A := by
  apply List.filter_eq_self.2
  intro a ha
  have : a ≠ 0 := fun e => h (e ▸ ha)
  simpa using this

/-- A vertical slide changes the number of inversions of the flattened board by an odd
amount. -/
theorem inv_slide_down {b : Board} (hv : ValidBoard b) {ey ex fy : Fin 4}
    (h : fy.val = ey.val + 1) (he : b ey ex = 0) :
    (inv (flatten (slide b ey ex fy ex)) + inv (flatten b)) % 2 = 1 := by
  obtain ⟨A, M, B, hM, e1, e2⟩ := vals_slide_down b ey ex fy h
  have hnd := valid_nodup hv
  rw [e1, he] at hnd
  rw [he] at e1
  have h1 := List.nodup_append.1 hnd
  have hA : (0 : Int) ∉ A := fun hm => h1.2.2 hm (by simp)
  have h2 := List.nodup_cons.1 h1.2.1
  have h3 := List.nodup_append.1 h2.2
  have hM0 : (0 : Int) ∉ M := fun hm => h2.1 (by simp [hm])
  have h4 := List.nodup_cons.1 h3.2.1
  have ht0 : b fy ex ≠ 0 := fun e => h2.1 (by simp [e])
  have hB0 : (0 : Int) ∉ B := fun hm => h2.1 (by simp [hm])
  have htM : b fy ex ∉ M := fun hm => h3.2.2 hm (by simp)
  have f1 : flatten b = A ++ (M ++ b fy ex :: B) := by
    rw [flatten_eq, e1]
    simp [List.filter_append, List.filter_cons, filter_ne_zero_of_not_mem, hA, hM0, hB0, ht0]
  have f2 : flatten (slide b ey ex fy ex) = A ++ b fy ex :: (M ++ B) := by
    rw [flatten_eq, e2]
    simp [List.filter_append, List.filter_cons, filter_ne_zero_of_not_mem, hA, hM0, hB0, ht0]
  rw [f1, f2]
  have j := inv_jump A M B (b fy ex)
  have c := countP_lt_add_gt M (b fy ex) htM
  omega

/-- A horizontal slide leaves the flattened board unchanged. -/
theorem flatten_slide_right {b : Board} {ey ex fx : Fin 4}
    (h : fx.val = ex.val + 1) (he : b ey ex = 0) :
    flatten (slide b ey ex ey fx) = flatten b := by
  obtain ⟨A, B, e1, e2⟩ := vals_slide_right b ey ex fx h
  rw [flatten_eq, flatten_eq, e1, e2, he]
  by_cases ht : b ey fx = 0
  · simp [List.filter_append, List.filter_cons, ht]
  · simp [List.filter_append, List.filter_cons, ht]

theorem find_empty_row_eq {b : Board} {ey ex : Fin 4} (he : EmptyAt b ey ex) (uninit : Int) :
    find_empty_row uninit b = (ey.val : Int) := by
  have H : ∀ i j, (b i j == 0) = decide (i = ey ∧ j = ex) := by
    intro i j
    by_cases h : i = ey ∧ j = ex
    · have e0 := (he i j).2 h
      rw [e0, decide_eq_true h]; rfl
    · have : b i j ≠ 0 := fun e => h ((he i j).1 e)
      simp [h, this]
  unfold find_empty_row
  simp only [H]
  clear H he
  fin_cases ey <;> fin_cases ex <;> rfl

theorem solvability_parity_eq {b : Board} {ey ex : Fin 4} (he : EmptyAt b ey ex) (uninit : Int) :
    solvability_parity uninit b = (((inv (flatten b) + ey.val) % 2 : Nat) : Int) := by
  unfold solvability_parity
  rw [count_inversions_eq_inv, find_empty_row_eq he]
  have : ((inv (flatten b) : Int) + (ey.val : Int)) = ((inv (flatten b) + ey.val : Nat) : Int) := by
    push_cast; rfl
  rw [this, Int.tmod_eq_emod (by omega) (by omega)]
  omega

/-- One slide oriented right or down preserves the parity. -/
theorem parity_slide_oriented {b : Board} (hv : ValidBoard b) {ey ex fy fx : Fin 4}
    (he : EmptyAt b ey ex)
    (h : (fx.val = ex.val + 1 ∧ fy = ey) ∨ (fy.val = ey.val + 1 ∧ fx = ex)) :
    (inv (flatten (slide b ey ex fy fx)) + fy.val) % 2 = (inv (flatten b) + ey.val) % 2 := by
  have he0 : b ey ex = 0 := (he ey ex).2 ⟨rfl, rfl⟩
  rcases h with ⟨h, rfl⟩ | ⟨h, rfl⟩
  · rw [flatten_slide_right h he0]
  · have := inv_slide_down hv h he0
    omega

/-- The parity `(inversions + empty_row) % 2` is the same before and after a slide. -/
theorem parity_slide {b : Board} (hv : ValidBoard b) {ey ex fy fx : Fin 4}
    (he : EmptyAt b ey ex) (ha : Adjacent ey ex fy fx) (u1 u2 : Int) :
    solvability_parity u1 (slide b ey ex fy fx) = solvability_parity u2 b := by
  have he0 : b ey ex = 0 := (he ey ex).2 ⟨rfl, rfl⟩
  have hne := adjacent_ne ha
  have he2 : EmptyAt (slide b ey ex fy fx) fy fx := slide_emptyAt he hne
  rw [solvability_parity_eq he2, solvability_parity_eq he]
  congr 1
  have hcases : ((fx.val = ex.val + 1 ∧ fy = ey) ∨ (fy.val = ey.val + 1 ∧ fx = ex)) ∨
      ((ex.val = fx.val + 1 ∧ ey = fy) ∨ (ey.val = fy.val + 1 ∧ ex = fx)) := by
    unfold Adjacent at ha
    simp only [Fin.ext_iff]
    omega
  rcases hcases with h | h
  · exact parity_slide_oriented hv he h
  · have hv2 : ValidBoard (slide b ey ex fy fx) := slide_valid hv he0
    have := parity_slide_oriented hv2 he2 h
    rw [slide_slide he0] at this
    exact this.symm

theorem is_solvable_slide {b : Board} (hv : ValidBoard b) {ey ex fy fx : Fin 4}
    (he : EmptyAt b ey ex) (ha : Adjacent ey ex fy fx) (u1 u2 : Int) :
    is_solvable u1 (slide b ey ex fy fx) = is_solvable u2 b := by
  unfold is_solvable
  rw [parity_slide hv he ha u1 u2]

/-! ## `initialize_board` and `shuffle_board` -/

theorem initialize_board_eq (b : Board) : initialize_board b = goal := by
  funext i j
  fin_cases i <;> fin_cases j <;> rfl

theorem goal_valid : ValidBoard goal := by decide

theorem goal_emptyAt : EmptyAt goal 3 3 := emptyAt_of_valid goal_valid (by decide)

theorem goal_solvable (uninit : Int) : is_solvable uninit goal = true := by
  unfold is_solvable
  rw [solvability_parity_eq goal_emptyAt]
  decide

/-- One iteration of the random walk, started with `(empty_x, empty_y)` naming the empty cell,
either leaves everything alone or slides an adjacent tile, and again names the empty cell. -/
theorem shuffle_step_spec (dir : Nat) {b : Board} (hv : ValidBoard b) {ey ex : Fin 4}
    (he : EmptyAt b ey ex) :
    ∃ fy fx : Fin 4,
      (shuffle_step dir b (ex.val : Int) (ey.val : Int)).2.1 = (fx.val : Int) ∧
      (shuffle_step dir b (ex.val : Int) (ey.val : Int)).2.2 = (fy.val : Int) ∧
      ValidBoard (shuffle_step dir b (ex.val : Int) (ey.val : Int)).1 ∧
      EmptyAt (shuffle_step dir b (ex.val : Int) (ey.val : Int)).1 fy fx ∧
      ∀ u1 u2 : Int,
        solvability_parity u1 (shuffle_step dir b (ex.val : Int) (ey.val : Int)).1 =
          solvability_parity u2 b := by
  have he0 : b ey ex = 0 := (he ey ex).2 ⟨rfl, rfl⟩
  have hstay : ∀ u1 u2 : Int, solvability_parity u1 b = solvability_parity u2 b := by
    intro u1 u2
    rw [solvability_parity_eq he, solvability_parity_eq he]
  have hxl := ex.isLt
  have hyl := ey.isLt
  by_cases hm : (shuffle_target dir (ex.val : Int) (ey.val : Int)).1 ≠ (ex.val : Int) ∨
      (shuffle_target dir (ex.val : Int) (ey.val : Int)).2 ≠ (ey.val : Int)
  · -- the empty cell moves to an adjacent cell inside the board
    have hrange : ∃ fy fx : Fin 4,
        (shuffle_target dir (ex.val : Int) (ey.val : Int)) = ((fx.val : Int), (fy.val : Int)) ∧
        Adjacent ey ex fy fx := by
      unfold shuffle_target at hm ⊢
      split at hm
      · split at hm
        · rename_i h
          rw [if_pos h]
          refine ⟨⟨ey.val - 1, by omega⟩, ex, ?_, ?_⟩
          · simp only [Prod.mk.injEq, true_and]; omega
          · unfold Adjacent; dsimp only; omega
        · simp at hm
      · split at hm
        · rename_i h
          rw [if_pos h]
          refine ⟨⟨ey.val + 1, by omega⟩, ex, ?_, ?_⟩
          · simp only [Prod.mk.injEq, true_and]; omega
          · unfold Adjacent; dsimp only; omega
        · simp at hm
      · split at hm
        · rename_i h
          rw [if_pos h]
          refine ⟨ey, ⟨ex.val - 1, by omega⟩, ?_, ?_⟩
          · simp only [Prod.mk.injEq, and_true]; omega
          · unfold Adjacent; dsimp only; omega
        · simp at hm
      · split at hm
        · rename_i h
          rw [if_pos h]
          refine ⟨ey, ⟨ex.val + 1, by omega⟩, ?_, ?_⟩
          · simp only [Prod.mk.injEq, and_true]; omega
          · unfold Adjacent; dsimp only; omega
        · simp at hm
      · simp at hm
    obtain ⟨fy, fx, ht, ha⟩ := hrange
    have hb : (shuffle_step dir b (ex.val : Int) (ey.val : Int)) =
        (slide b ey ex fy fx, (fx.val : Int), (fy.val : Int)) := by
      unfold shuffle_step
      simp only
      rw [if_pos hm, ht]
      simp only [read_fin]
      congr 1
      funext i j
      simp only [write_fin, slide]
    rw [hb]
    exact ⟨fy, fx, rfl, rfl, slide_valid hv he0, slide_emptyAt he (adjacent_ne ha),
      fun u1 u2 => parity_slide hv he ha u1 u2⟩
  · have hb : (shuffle_step dir b (ex.val : Int) (ey.val : Int)) =
        (b, (ex.val : Int), (ey.val : Int)) := by
      unfold shuffle_step
      simp only
      rw [if_neg hm]
    rw [hb]
    exact ⟨ey, ex, rfl, rfl, hv, he, hstay⟩

theorem shuffle_loop_spec (rand : Nat → Nat) (k : Nat) :
    ∀ (i n : Nat) (b : Board) (ey ex : Fin 4), 300 - i ≤ k → ValidBoard b → EmptyAt b ey ex →
      ValidBoard (shuffle_loop rand i n b (ex.val : Int) (ey.val : Int)) ∧
      ∀ u1 u2 : Int,
        solvability_parity u1 (shuffle_loop rand i n b (ex.val : Int) (ey.val : Int)) =
          solvability_parity u2 b := by
  induction k with
  | zero =>
    intro i n b ey ex hk hv he
    have hstop : ¬ i < 200 + rand n % 100 := by omega
    rw [shuffle_loop, if_neg hstop]
    refine ⟨hv, fun u1 u2 => ?_⟩
    rw [solvability_parity_eq he, solvability_parity_eq he]
  | succ k ih =>
    intro i n b ey ex hk hv he
    rw [shuffle_loop]
    by_cases hc : i < 200 + rand n % 100
    · rw [if_pos hc]
      simp only
      obtain ⟨fy, fx, h1, h2, hv2, he2, hp⟩ := shuffle_step_spec (rand (n + 1) % 4) hv he
      rw [h1, h2]
      have := ih (i + 1) (n + 2) _ fy fx (by omega) hv2 he2
      refine ⟨this.1, fun u1 u2 => ?_⟩
      rw [this.2 u1 u2, hp u2 u2]
    · rw [if_neg hc]
      refine ⟨hv, fun u1 u2 => ?_⟩
      rw [solvability_parity_eq he, solvability_parity_eq he]

/-! ## Legal slides as a relation on boards -/

theorem slideStep_valid {b c : Board} (h : SlideStep b c) : ValidBoard c := by
  obtain ⟨ey, ex, fy, fx, hv, he, _, rfl⟩ := h
  exact slide_valid hv ((he ey ex).2 ⟨rfl, rfl⟩)

theorem slideStep_symm {b c : Board} (h : SlideStep b c) : SlideStep c b := by
  obtain ⟨ey, ex, fy, fx, hv, he, ha, rfl⟩ := h
  have he0 : b ey ex = 0 := (he ey ex).2 ⟨rfl, rfl⟩
  exact ⟨fy, fx, ey, ex, slide_valid hv he0, slide_emptyAt he (adjacent_ne ha),
    adjacent_symm ha, (slide_slide he0).symm⟩

theorem slideStep_solvable {b c : Board} (h : SlideStep b c) (u1 u2 : Int) :
    is_solvable u1 c = is_solvable u2 b := by
  obtain ⟨ey, ex, fy, fx, hv, he, ha, rfl⟩ := h
  exact is_solvable_slide hv he ha u1 u2

theorem slides_symm {b c : Board} (h : Slides b c) : Slides c b := by
  induction h with
  | refl => exact Relation.ReflTransGen.refl
  | tail _ hstep ih => exact Relation.ReflTransGen.head (slideStep_symm hstep) ih

theorem slides_valid {b c : Board} (h : Slides b c) (hv : ValidBoard b) : ValidBoard c := by
  induction h with
  | refl => exact hv
  | tail _ hstep _ => exact slideStep_valid hstep

theorem slides_solvable {b c : Board} (h : Slides b c) (u : Int) :
    is_solvable u c = is_solvable u b := by
  induction h with
  | refl => rfl
  | tail _ hstep ih => rw [slideStep_solvable hstep u u, ih]

/-- A successful call of `move_tile` on a valid board is a `SlideStep`. -/
theorem slideStep_of_move_tile (s : State) (hv : ValidBoard s.board) (x y : Int)
    (hr : (move_tile s x y).2 = 1) : SlideStep s.board (move_tile s x y).1.board := by
  obtain ⟨ey, ex, he⟩ := valid_empty hv
  rcases move_tile_cases s he x y with h | ⟨fy, fx, _, _, ha, h⟩
  · rw [h] at hr; simp at hr
  · rw [h]
    exact ⟨ey, ex, fy, fx, hv, he, ha, rfl⟩

/-- Every `SlideStep` is a successful call of `move_tile`. -/
theorem move_tile_of_slideStep {b c : Board} (h : SlideStep b c) (n : Int) :
    ∃ x y : Int, (move_tile { board := b, move_count := n } x y).2 = 1 ∧
      (move_tile { board := b, move_count := n } x y).1 =
        { board := c, move_count := wrap_int (n + 1) } := by
  obtain ⟨ey, ex, fy, fx, hv, he, ha, rfl⟩ := h
  refine ⟨(fx.val : Int), (fy.val : Int), ?_, ?_⟩
  · rw [move_tile_fin { board := b, move_count := n } he fy fx, if_pos ha]
  · rw [move_tile_fin { board := b, move_count := n } he fy fx, if_pos ha]

theorem slides_of_slide_all (calls : List (Int × Int)) :
    ∀ (s t : State), ValidBoard s.board → slide_all s calls = some t → Slides s.board t.board := by
  induction calls with
  | nil =>
    intro s t _ h
    simp only [slide_all, Option.some.injEq] at h
    rw [h]
    exact Relation.ReflTransGen.refl
  | cons c rest ih =>
    intro s t hv h
    rw [slide_all] at h
    by_cases hr : (move_tile s c.1 c.2).2 = 1
    · rw [if_pos hr] at h
      have hstep := slideStep_of_move_tile s hv c.1 c.2 hr
      exact Relation.ReflTransGen.head hstep (ih _ t (slideStep_valid hstep) h)
    · rw [if_neg hr] at h
      cases h

theorem slide_all_of_slides {b c : Board} (h : Slides b c) (n : Int) :
    ∃ (calls : List (Int × Int)) (m : Int),
      slide_all { board := b, move_count := n } calls = some { board := c, move_count := m } := by
  induction h using Relation.ReflTransGen.head_induction_on generalizing n with
  | refl => exact ⟨[], n, rfl⟩
  | head hstep _ ih =>
    obtain ⟨x, y, h1, h2⟩ := move_tile_of_slideStep hstep n
    obtain ⟨calls, m, hc⟩ := ih (wrap_int (n + 1))
    refine ⟨(x, y) :: calls, m, ?_⟩
    rw [slide_all]
    simp only
    rw [if_pos h1, h2]
    exact hc

theorem reachable_iff_slides (b : Board) : Reachable b ↔ Slides goal b := by
  constructor
  · rintro ⟨calls, s, h, rfl⟩
    exact slides_of_slide_all calls _ s goal_valid h
  · intro h
    obtain ⟨calls, m, hc⟩ := slide_all_of_slides h 0
    exact ⟨calls, _, hc, rfl⟩

/-! ## Renaming tiles commutes with slides -/

theorem relabel_vals (f : Int → Int) (b : Board) : (relabel f b).vals = b.vals.map f := by
  simp [Board.vals, relabel, List.map_map, Function.comp]

theorem relabel_slide (f : Int → Int) (hf : f 0 = 0) (b : Board) (ey ex fy fx : Fin 4) :
    relabel f (slide b ey ex fy fx) = slide (relabel f b) ey ex fy fx := by
  funext i j
  unfold relabel slide
  split
  · exact hf
  · split <;> rfl

theorem relabel_slideStep (f : Int → Int) (hf : f 0 = 0) {b c : Board} (h : SlideStep b c)
    (hv : ValidBoard (relabel f b)) : SlideStep (relabel f b) (relabel f c) := by
  obtain ⟨ey, ex, fy, fx, _, he, ha, rfl⟩ := h
  have he0 : relabel f b ey ex = 0 := by
    show f (b ey ex) = 0
    rw [(he ey ex).2 ⟨rfl, rfl⟩, hf]
  exact ⟨ey, ex, fy, fx, hv, emptyAt_of_valid hv he0, ha, relabel_slide f hf b ey ex fy fx⟩

theorem relabel_slides (f : Int → Int) (hf : f 0 = 0) {b c : Board} (h : Slides b c)
    (hv : ValidBoard (relabel f b)) : Slides (relabel f b) (relabel f c) := by
  induction h with
  | refl => exact Relation.ReflTransGen.refl
  | tail hbc hstep ih =>
    exact Relation.ReflTransGen.tail ih (relabel_slideStep f hf hstep (slides_valid ih hv))

/-! ## Bringing the empty cell to row 3, column 3 -/

theorem slides_to_corner (k : Nat) :
    ∀ (b : Board) (ey ex : Fin 4), (3 - ey.val) + (3 - ex.val) ≤ k → ValidBoard b →
      EmptyAt b ey ex → ∃ c, Slides b c ∧ c 3 3 = 0 := by
  induction k with
  | zero =>
    intro b ey ex hk _ he
    have hy : ey = 3 := by apply Fin.ext; show _ = 3; omega
    have hx : ex = 3 := by apply Fin.ext; show _ = 3; omega
    subst hy hx
    exact ⟨b, Relation.ReflTransGen.refl, (he 3 3).2 ⟨rfl, rfl⟩⟩
  | succ k ih =>
    intro b ey ex hk hv he
    have he0 : b ey ex = 0 := (he ey ex).2 ⟨rfl, rfl⟩
    by_cases hx : ex.val < 3
    · have ha : Adjacent ey ex ey ⟨ex.val + 1, by omega⟩ := by
        unfold Adjacent; dsimp only; omega
      obtain ⟨c, hc, h0⟩ := ih (slide b ey ex ey ⟨ex.val + 1, by omega⟩) ey ⟨ex.val + 1, by omega⟩
        (by dsimp only; omega) (slide_valid hv he0) (slide_emptyAt he (adjacent_ne ha))
      exact ⟨c, Relation.ReflTransGen.head ⟨ey, ex, ey, _, hv, he, ha, rfl⟩ hc, h0⟩
    · by_cases hy : ey.val < 3
      · have ha : Adjacent ey ex ⟨ey.val + 1, by omega⟩ ex := by
          unfold Adjacent; dsimp only; omega
        obtain ⟨c, hc, h0⟩ := ih (slide b ey ex ⟨ey.val + 1, by omega⟩ ex) ⟨ey.val + 1, by omega⟩ ex
          (by dsimp only; omega) (slide_valid hv he0) (slide_emptyAt he (adjacent_ne ha))
        exact ⟨c, Relation.ReflTransGen.head ⟨ey, ex, _, ex, hv, he, ha, rfl⟩ hc, h0⟩
      · have := ey.isLt
        have := ex.isLt
        have hy3 : ey = 3 := by apply Fin.ext; show _ = 3; omega
        have hx3 : ex = 3 := by apply Fin.ext; show _ = 3; omega
        subst hy3 hx3
        exact ⟨b, Relation.ReflTransGen.refl, he0⟩

/-! ## Sorting a list by rotations of three consecutive entries -/

theorem rot3_perm (k : Nat) (l : List Int) : (rot3 k l).Perm l := by
  induction k generalizing l with
  | zero =>
    match l with
    | [] => exact List.Perm.refl _
    | [_] => exact List.Perm.refl _
    | [_, _] => exact List.Perm.refl _
    | a :: b :: c :: rest =>
      show (c :: a :: b :: rest).Perm (a :: b :: c :: rest)
      exact ((List.Perm.swap a c (b :: rest)).trans
        (List.Perm.cons a (List.Perm.swap b c rest)))
  | succ k ih =>
    match l with
    | [] => exact List.Perm.refl _
    | x :: rest => exact List.Perm.cons x (ih rest)

theorem rot3_map (f : Int → Int) (k : Nat) (l : List Int) :
    (rot3 k l).map f = rot3 k (l.map f) := by
  induction k generalizing l with
  | zero =>
    match l with
    | [] => rfl
    | [_] => rfl
    | [_, _] => rfl
    | _ :: _ :: _ :: _ => rfl
  | succ k ih =>
    match l with
    | [] => rfl
    | x :: rest =>
      show f x :: (rot3 k rest).map f = f x :: rot3 k (rest.map f)
      rw [ih]

theorem rotStar_cons (x : Int) {l m : List Int} (h : Relation.ReflTransGen RotStep l m) :
    Relation.ReflTransGen RotStep (x :: l) (x :: m) := by
  induction h with
  | refl => exact Relation.ReflTransGen.refl
  | tail _ hstep ih =>
    obtain ⟨k, rfl⟩ := hstep
    exact Relation.ReflTransGen.tail ih ⟨k + 1, rfl⟩

theorem rotStar_perm {l m : List Int} (h : Relation.ReflTransGen RotStep l m) : m.Perm l := by
  induction h with
  | refl => exact List.Perm.refl _
  | tail _ hstep ih =>
    obtain ⟨k, rfl⟩ := hstep
    exact (rot3_perm k _).trans ih

/-- Any entry of a list of length at least three can be brought to the front. -/
theorem bring_front (a : Int) :
    ∀ l : List Int, 3 ≤ l.length → a ∈ l → ∃ r, Relation.ReflTransGen RotStep l (a :: r) := by
  intro l
  induction l with
  | nil => intro h; simp at h
  | cons x rest ih =>
    intro hlen hmem
    by_cases hx : a = x
    · subst hx
      exact ⟨rest, Relation.ReflTransGen.refl⟩
    · have hmem2 : a ∈ rest := by
        rcases List.mem_cons.1 hmem with h | h
        · exact absurd h hx
        · exact h
      by_cases h3 : 3 ≤ rest.length
      · obtain ⟨r, hr⟩ := ih h3 hmem2
        have hl : (a :: r).length = rest.length := (rotStar_perm hr).length_eq
        match r, hr, hl with
        | [], _, hl => simp at hl; omega
        | y :: r2, hr, _ =>
          refine ⟨y :: x :: r2, ?_⟩
          have s1 : Relation.ReflTransGen RotStep (x :: rest) (x :: a :: y :: r2) :=
            rotStar_cons x hr
          have s2 : RotStep (x :: a :: y :: r2) (y :: x :: a :: r2) := ⟨0, rfl⟩
          have s3 : RotStep (y :: x :: a :: r2) (a :: y :: x :: r2) := ⟨0, rfl⟩
          exact (s1.tail s2).tail s3
      · match rest, hlen, h3, hmem2 with
        | [p, q], _, _, hm =>
          have s1 : RotStep [x, p, q] [q, x, p] := ⟨0, rfl⟩
          have s2 : RotStep [q, x, p] [p, q, x] := ⟨0, rfl⟩
          rcases List.mem_cons.1 hm with h | h
          · subst h
            exact ⟨[q, x], (Relation.ReflTransGen.single s1).tail s2⟩
          · rcases List.mem_cons.1 h with h | h
            · subst h
              exact ⟨[x, p], Relation.ReflTransGen.single s1⟩
            · simp at h
        | [], hlen, _, _ => simp at hlen
        | [_], hlen, _, _ => simp at hlen
        | _ :: _ :: _ :: _, _, h3, _ => simp at h3

/-- Rotations of three consecutive entries sort every list up to the order of its last two
entries. -/
theorem sort_by_rotations :
    ∀ t l : List Int, 2 ≤ t.length → l.Perm t →
      Relation.ReflTransGen RotStep l t ∨ Relation.ReflTransGen RotStep l (swapLast2 t) := by
  intro t
  induction t with
  | nil => intro l h; simp at h
  | cons a t ih =>
    intro l hlen hp
    match t, ih, hlen, hp with
    | [], _, hlen, _ => simp at hlen
    | [b], _, _, hp =>
      have hl : l.length = 2 := hp.length_eq
      match l, hl, hp with
      | [p, q], _, hp =>
        have hpm : p ∈ [a, b] := hp.subset (by simp)
        have hqm : q ∈ [a, b] := hp.subset (by simp)
        have ham : a ∈ [p, q] := hp.symm.subset (by simp)
        have hbm : b ∈ [p, q] := hp.symm.subset (by simp)
        simp only [List.mem_cons, List.mem_singleton, List.not_mem_nil, or_false] at hpm hqm ham hbm
        by_cases h1 : p = a
        · by_cases h2 : q = b
          · left; rw [h1, h2]
          · have hq : q = a := by tauto
            have hb : b = a := by rcases hbm with h | h <;> [exact h.trans h1; exact h.trans hq]
            left; rw [h1, hq, hb]
        · have hp2 : p = b := by tauto
          by_cases h2 : q = a
          · right; rw [hp2, h2]; exact Relation.ReflTransGen.refl
          · have hq : q = b := by tauto
            have ha : a = b := by rcases ham with h | h <;> [exact h.trans hp2; exact h.trans hq]
            left; rw [hp2, hq, ha]
    | c :: d :: t2, ih, _, hp =>
      have hl : l.length = (a :: c :: d :: t2).length := hp.length_eq
      have hmem : a ∈ l := hp.symm.subset (by simp)
      obtain ⟨r, hr⟩ := bring_front a l (by rw [hl]; simp) hmem
      have hp2 : r.Perm (c :: d :: t2) :=
        List.Perm.cons_inv ((rotStar_perm hr).trans hp)
      rcases ih r (by simp) hp2 with h | h
      · left
        exact hr.trans (rotStar_cons a h)
      · right
        have e : swapLast2 (a :: c :: d :: t2) = a :: swapLast2 (c :: d :: t2) := rfl
        rw [e]
        exact hr.trans (rotStar_cons a h)

/-! ## Boards and their row-major lists -/

theorem map_getD_range (l : List Int) :
    (List.range l.length).map (fun j => l.getD j 0) = l := by
  apply List.ext_getElem
  · simp
  · intro n h1 h2
    simp [List.getElem?_eq_getElem h2]

theorem ofList_vals (b : Board) : Board.ofList b.vals = b := by
  funext i j
  fin_cases i <;> fin_cases j <;> rfl

theorem vals_ofList (L : List Int) (h : L.length = 16) : (Board.ofList L).vals = L := by
  conv_rhs => rw [← map_getD_range L, h]
  rfl

theorem board_eq_of_vals {b c : Board} (h : b.vals = c.vals) : b = c := by
  rw [← ofList_vals b, ← ofList_vals c, h]

theorem goal_vals : goal.vals = solvedTiles ++ [0] := by decide

/-! ## The thirteen rotation tours on the solved board -/

set_option maxRecDepth 100000 in
theorem rotation_loop_effect :
    ∀ k ∈ List.range 13,
      (slide_all { board := goal, move_count := 0 } (rotation_loop k)).map
          (fun s => s.board.vals) = some (rot3 k solvedTiles ++ [0]) := by
  decide

theorem slides_goal_rot3 (k : Nat) (hk : k < 13) :
    Slides goal (Board.ofList (rot3 k solvedTiles ++ [0])) := by
  have h := rotation_loop_effect k (List.mem_range.2 hk)
  obtain ⟨s, hs, hvals⟩ := Option.map_eq_some'.1 h
  have := slides_of_slide_all (rotation_loop k) _ s goal_valid hs
  rw [← hvals, ofList_vals]
  exact this

theorem rot3_of_short : ∀ (k : Nat) (l : List Int), l.length < k + 3 → rot3 k l = l := by
  intro k
  induction k with
  | zero =>
    intro l h
    match l, h with
    | [], _ => rfl
    | [_], _ => rfl
    | [_, _], _ => rfl
    | _ :: _ :: _ :: _, h => simp at h; omega
  | succ k ih =>
    intro l h
    match l, h with
    | [], _ => rfl
    | x :: rest, h =>
      show x :: rot3 k rest = x :: rest
      rw [ih rest (by simp at h; omega)]

/-- The renaming that sends tile `n + 1` of the solved board to the entry `l[n]`. -/
theorem exists_relabel (l : List Int) (hl : l.length = 15) :
    ∃ f : Int → Int, f 0 = 0 ∧ solvedTiles.map f = l := by
  refine ⟨fun v => if v = 0 then 0 else l.getD (v.toNat - 1) 0, by simp, ?_⟩
  have e : solvedTiles = (List.range 15).map (fun (n : Nat) => (n : Int) + 1) := by decide
  rw [e, List.map_map]
  conv_rhs => rw [← map_getD_range l, hl]
  apply List.map_congr_left
  intro n _
  have h1 : ((n : Int) + 1) ≠ 0 := by omega
  have h2 : ((n : Int) + 1).toNat - 1 = n := by omega
  simp only [Function.comp, if_neg h1, h2]

/-- On every board with the empty cell in the last position, each rotation of three consecutive
tiles (in row-major order) can be carried out by legal slides. -/
theorem slides_rot3 (l : List Int) (hl : l.length = 15)
    (hv : ValidBoard (Board.ofList (l ++ [0]))) (k : Nat) :
    Slides (Board.ofList (l ++ [0])) (Board.ofList (rot3 k l ++ [0])) := by
  by_cases hk : k < 13
  · obtain ⟨f, hf0, hfl⟩ := exists_relabel l hl
    have e1 : relabel f goal = Board.ofList (l ++ [0]) := by
      apply board_eq_of_vals
      rw [relabel_vals, goal_vals, vals_ofList _ (by simp [hl]), List.map_append, hfl]
      simp [hf0]
    have e2 : relabel f (Board.ofList (rot3 k solvedTiles ++ [0])) =
        Board.ofList (rot3 k l ++ [0]) := by
      apply board_eq_of_vals
      have len1 : (rot3 k solvedTiles ++ [0]).length = 16 := by
        rw [List.length_append, (rot3_perm k solvedTiles).length_eq]; rfl
      have len2 : (rot3 k l ++ [0]).length = 16 := by
        rw [List.length_append, (rot3_perm k l).length_eq, hl]; rfl
      rw [relabel_vals, vals_ofList _ len1, vals_ofList _ len2, List.map_append, rot3_map, hfl]
      simp [hf0]
    have := relabel_slides f hf0 (slides_goal_rot3 k hk) (by rw [e1]; exact hv)
    rw [e1, e2] at this
    exact this
  · rw [rot3_of_short k l (by omega)]
    exact Relation.ReflTransGen.refl

theorem slides_rotStar {l m : List Int} (h : Relation.ReflTransGen RotStep l m)
    (hl : l.length = 15) (hv : ValidBoard (Board.ofList (l ++ [0]))) :
    Slides (Board.ofList (l ++ [0])) (Board.ofList (m ++ [0])) := by
  induction h with
  | refl => exact Relation.ReflTransGen.refl
  | tail hlm hstep ih =>
    obtain ⟨k, rfl⟩ := hstep
    have hlen := (rotStar_perm hlm).length_eq
    exact ih.trans (slides_rot3 _ (hlen.trans hl) (slides_valid ih hv) k)

/-! ## Return value and effect of `move_tile` -/

theorem move_tile_ret (s : State) {ey ex : Fin 4} (he : EmptyAt s.board ey ex) (x y : Int) :
    (move_tile s x y).2 =
      if 0 ≤ x ∧ x < 4 ∧ 0 ≤ y ∧ y < 4 ∧ |x - (ex.val : Int)| + |y - (ey.val : Int)| = 1
      then 1 else 0 := by
  by_cases hr : 0 ≤ x ∧ x < 4 ∧ 0 ≤ y ∧ y < 4
  · obtain ⟨fx, rfl⟩ := int_to_fin hr.1 hr.2.1
    obtain ⟨fy, rfl⟩ := int_to_fin hr.2.2.1 hr.2.2.2
    rw [move_tile_fin s he]
    by_cases ha : Adjacent ey ex fy fx
    · rw [if_pos ha, if_pos ⟨hr.1, hr.2.1, hr.2.2.1, hr.2.2.2, (adjacent_iff _ _ _ _).1 ha⟩]
    · rw [if_neg ha, if_neg (fun h => ha ((adjacent_iff _ _ _ _).2 h.2.2.2.2))]
  · rw [move_tile_out s x y hr, if_neg (fun h => hr ⟨h.1, h.2.1, h.2.2.1, h.2.2.2.1⟩)]

/-- C1: on a board that holds each of 0..15 exactly once, with its empty cell at column `ex`,
row `ey`, the call `move_tile(x, y)` returns 1 if and only if `0 ≤ x < 4`, `0 ≤ y < 4` and
`|x - ex| + |y - ey| = 1`, and returns 0 otherwise; with the empty cell at row 3, column 3 the
call for row 3, column 2 returns 1 and the call for row 2, column 2 returns 0. -/
theorem move_tile_returns_one_iff_adjacent (s : State) (hv : ValidBoard s.board)
    (ey ex : Fin 4) (he : s.board ey ex = 0) (x y : Int) :
    ((move_tile s x y).2 = 1 ↔
      (0 ≤ x ∧ x < 4 ∧ 0 ≤ y ∧ y < 4 ∧ |x - (ex.val : Int)| + |y - (ey.val : Int)| = 1)) ∧
    (¬(0 ≤ x ∧ x < 4 ∧ 0 ≤ y ∧ y < 4 ∧ |x - (ex.val : Int)| + |y - (ey.val : Int)| = 1) →
      (move_tile s x y).2 = 0) ∧
    (ey = 3 → ex = 3 → (move_tile s 2 3).2 = 1 ∧ (move_tile s 2 2).2 = 0) := by
  have hE := emptyAt_of_valid hv he
  refine ⟨?_, ?_, ?_⟩
  · rw [move_tile_ret s hE]
    split <;> simp_all
  · intro h
    rw [move_tile_ret s hE, if_neg h]
  · rintro rfl rfl
    rw [move_tile_ret s hE, move_tile_ret s hE]
    constructor <;> decide

theorem move_tile_returns_one_iff_adjacent_witness :
    ValidBoard goal ∧ goal 3 3 = 0 ∧
      ((move_tile { board := goal, move_count := 0 } 2 3).2 = 1 ∧
       (move_tile { board := goal, move_count := 0 } 2 2).2 = 0) :=
  ⟨by decide, by decide,
    (move_tile_returns_one_iff_adjacent { board := goal, move_count := 0 } (by decide) 3 3
      (by decide) 0 0).2.2 rfl rfl⟩

/-- C2 (as amended): on a board that holds each of 0..15 exactly once, with its empty cell at
`(ey, ex)`, whenever `move_tile(x, y)` returns 1 the arguments name a cell `(fy, fx)` (row `y`,
column `x`) such that afterwards the previously empty cell holds the value the target cell held
before, the target cell holds 0, every other cell is unchanged, and, provided `move_count` was
an `int` value below `INT_MAX = 2147483647` before the call, `move_count` is exactly one
greater than before. -/
theorem move_tile_success_effect (s : State) (hv : ValidBoard s.board)
    (ey ex : Fin 4) (he : s.board ey ex = 0) (x y : Int) (hr : (move_tile s x y).2 = 1) :
    ∃ fy fx : Fin 4, (fx.val : Int) = x ∧ (fy.val : Int) = y ∧
      (move_tile s x y).1.board ey ex = s.board fy fx ∧
      (move_tile s x y).1.board fy fx = 0 ∧
      (∀ i j : Fin 4, ¬(i = ey ∧ j = ex) → ¬(i = fy ∧ j = fx) →
        (move_tile s x y).1.board i j = s.board i j) ∧
      (-2147483648 ≤ s.move_count → s.move_count < 2147483647 →
        (move_tile s x y).1.move_count = s.move_count + 1) := by
  have hE := emptyAt_of_valid hv he
  rcases move_tile_cases s hE x y with h | ⟨fy, fx, hx, hy, ha, h⟩
  · rw [h] at hr; simp at hr
  · refine ⟨fy, fx, hx, hy, ?_⟩
    rw [h]
    have hne := adjacent_ne ha
    refine ⟨?_, ?_, ?_, ?_⟩
    · have : ¬(ey = fy ∧ ex = fx) := fun e => hne ⟨e.1.symm, e.2.symm⟩
      simp [slide, this]
    · simp [slide]
    · intro i j h1 h2
      simp [slide, h1, h2]
    · intro hlo hhi
      exact wrap_int_of_range (by omega) (by omega)

theorem move_tile_success_effect_witness :
    ValidBoard goal ∧ goal 3 3 = 0 ∧
      (move_tile { board := goal, move_count := 0 } 2 3).2 = 1 ∧
      ∃ fy fx : Fin 4, (fx.val : Int) = 2 ∧ (fy.val : Int) = 3 ∧
        (move_tile { board := goal, move_count := 0 } 2 3).1.board 3 3 = goal fy fx ∧
        (move_tile { board := goal, move_count := 0 } 2 3).1.board fy fx = 0 ∧
        (∀ i j : Fin 4, ¬(i = 3 ∧ j = 3) → ¬(i = fy ∧ j = fx) →
          (move_tile { board := goal, move_count := 0 } 2 3).1.board i j = goal i j) ∧
        (move_tile { board := goal, move_count := 0 } 2 3).1.move_count = 0 + 1 :=
  ⟨by decide, by decide, by decide,
    match move_tile_success_effect { board := goal, move_count := 0 } (by decide) 3 3
      (by decide) 2 3 (by decide) with
    | ⟨fy, fx, h1, h2, h3, h4, h5, h6⟩ =>
      ⟨fy, fx, h1, h2, h3, h4, h5, h6 (by decide) (by decide)⟩⟩

/-- C2 (counterexample to the claim as stated): on the solved board with
`move_count = INT_MAX = 2147483647` the call `move_tile(2, 3)` returns 1, and afterwards
`move_count` is `-2147483648`, not one greater than before. -/
theorem move_tile_count_not_one_greater :
    ValidBoard goal ∧
      (move_tile { board := goal, move_count := 2147483647 } 2 3).2 = 1 ∧
      (move_tile { board := goal, move_count := 2147483647 } 2 3).1.move_count = -2147483648 ∧
      ¬((move_tile { board := goal, move_count := 2147483647 } 2 3).1.move_count
          = 2147483647 + 1) := by
  decide

/-- C3: on a board that holds each of 0..15 exactly once, whenever `move_tile(x, y)` returns 0
the board and `move_count` are exactly what they were before the call; and it does return 0
for out-of-range coordinates, for a target that is not adjacent to the empty cell, and for a
click on the empty cell itself. -/
theorem move_tile_failure_no_effect (s : State) (hv : ValidBoard s.board) (x y : Int) :
    ((move_tile s x y).2 = 0 → (move_tile s x y).1 = s) ∧
    (¬(0 ≤ x ∧ x < 4 ∧ 0 ≤ y ∧ y < 4) → (move_tile s x y).2 = 0) ∧
    (∀ ey ex : Fin 4, s.board ey ex = 0 →
      |x - (ex.val : Int)| + |y - (ey.val : Int)| ≠ 1 → (move_tile s x y).2 = 0) ∧
    (∀ ey ex : Fin 4, s.board ey ex = 0 → x = (ex.val : Int) → y = (ey.val : Int) →
      (move_tile s x y).2 = 0) := by
  obtain ⟨ey, ex, hE⟩ := valid_empty hv
  refine ⟨?_, ?_, ?_, ?_⟩
  · intro h0
    rcases move_tile_cases s hE x y with h | ⟨fy, fx, _, _, _, h⟩
    · rw [h]
    · rw [h] at h0; simp at h0
  · intro h
    rw [move_tile_out s x y h]
  · intro ey2 ex2 he2 hd
    rw [move_tile_ret s (emptyAt_of_valid hv he2), if_neg (fun h => hd h.2.2.2.2)]
  · rintro ey2 ex2 he2 rfl rfl
    rw [move_tile_ret s (emptyAt_of_valid hv he2), if_neg (by simp)]

theorem move_tile_failure_no_effect_witness :
    ValidBoard goal ∧ (move_tile { board := goal, move_count := 0 } 2 2).2 = 0 ∧
      (move_tile { board := goal, move_count := 0 } 2 2).1 = { board := goal, move_count := 0 } :=
  ⟨by decide, by decide,
    (move_tile_failure_no_effect { board := goal, move_count := 0 } (by decide) 2 2).1
      (by decide)⟩

/-- C5: starting from a board that holds each of 0..15 exactly once, after every finite
sequence of `move_tile(x, y)` calls with arbitrary integer arguments the board still holds each
of 0..15 exactly once, and exactly one cell holds 0. -/
theorem run_moves_preserves_valid (s : State) (hv : ValidBoard s.board)
    (calls : List (Int × Int)) :
    ValidBoard (run_moves s calls).board ∧
    ∃! p : Fin 4 × Fin 4, (run_moves s calls).board p.1 p.2 = 0 := by
  have key : ValidBoard (run_moves s calls).board := by
    induction calls generalizing s with
    | nil => exact hv
    | cons c rest ih =>
      exact ih (move_tile s c.1 c.2).1 (move_tile_valid s hv c.1 c.2)
  refine ⟨key, ?_⟩
  obtain ⟨ey, ex, hE⟩ := valid_empty key
  refine ⟨(ey, ex), (hE ey ex).2 ⟨rfl, rfl⟩, ?_⟩
  rintro ⟨i, j⟩ h
  have := (hE i j).1 h
  simp [this.1, this.2]

theorem run_moves_preserves_valid_witness :
    ValidBoard goal ∧
      (ValidBoard (run_moves { board := goal, move_count := 0 } [(2, 3), (7, -1), (2, 2)]).board ∧
        ∃! p : Fin 4 × Fin 4,
          (run_moves { board := goal, move_count := 0 } [(2, 3), (7, -1), (2, 2)]).board p.1 p.2
            = 0) :=
  ⟨by decide,
    run_moves_preserves_valid { board := goal, move_count := 0 } (by decide)
      [(2, 3), (7, -1), (2, 2)]⟩

/-- C9 (as amended): on a board that holds each of 0..15 exactly once with its empty cell at
column `ex`, row `ey`, if `move_tile(x, y)` returns 1 then the immediately following call
`move_tile(ex, ey)` also returns 1 and the board after the two calls equals the original board
cell for cell; provided `move_count` was an `int` value below `INT_MAX - 1 = 2147483646`
before the first call, it has grown by 2. -/
theorem move_tile_undo (s : State) (hv : ValidBoard s.board)
    (ey ex : Fin 4) (he : s.board ey ex = 0) (x y : Int) (hr : (move_tile s x y).2 = 1) :
    (move_tile (move_tile s x y).1 (ex.val : Int) (ey.val : Int)).2 = 1 ∧
    (move_tile (move_tile s x y).1 (ex.val : Int) (ey.val : Int)).1.board = s.board ∧
    (-2147483648 ≤ s.move_count → s.move_count < 2147483646 →
      (move_tile (move_tile s x y).1 (ex.val : Int) (ey.val : Int)).1.move_count
        = s.move_count + 2) := by
  have hE := emptyAt_of_valid hv he
  rcases move_tile_cases s hE x y with h | ⟨fy, fx, hx, hy, ha, h⟩
  · rw [h] at hr; simp at hr
  · rw [h]
    have hE2 : EmptyAt (slide s.board ey ex fy fx) fy fx := slide_emptyAt hE (adjacent_ne ha)
    rw [move_tile_fin _ hE2 ey ex, if_pos (adjacent_symm ha)]
    refine ⟨rfl, slide_slide he, ?_⟩
    intro hlo hhi
    show wrap_int (wrap_int (s.move_count + 1) + 1) = s.move_count + 2
    have e1 : wrap_int (s.move_count + 1) = s.move_count + 1 :=
      wrap_int_of_range (by omega) (by omega)
    rw [e1]
    have e2 : wrap_int (s.move_count + 1 + 1) = s.move_count + 1 + 1 :=
      wrap_int_of_range (by omega) (by omega)
    rw [e2]
    omega

theorem move_tile_undo_witness :
    ValidBoard goal ∧ goal 3 3 = 0 ∧
      (move_tile { board := goal, move_count := 0 } 2 3).2 = 1 ∧
      ((move_tile (move_tile { board := goal, move_count := 0 } 2 3).1 3 3).2 = 1 ∧
       (move_tile (move_tile { board := goal, move_count := 0 } 2 3).1 3 3).1.board = goal ∧
       (move_tile (move_tile { board := goal, move_count := 0 } 2 3).1 3 3).1.move_count
         = 0 + 2) :=
  ⟨by decide, by decide, by decide,
    match move_tile_undo { board := goal, move_count := 0 } (by decide) 3 3 (by decide) 2 3
      (by decide) with
    | ⟨h1, h2, h3⟩ => ⟨h1, h2, h3 (by decide) (by decide)⟩⟩

/-- C9 (counterexample to the claim as stated): on the solved board with
`move_count = INT_MAX - 1 = 2147483646`, the call `move_tile(2, 3)` returns 1, the following
call `move_tile(3, 3)` returns 1 and restores the board, but `move_count` is then
`-2147483648`, not 2 greater than before. -/
theorem move_tile_undo_count_not_two_greater :
    ValidBoard goal ∧ goal 3 3 = 0 ∧
      (move_tile { board := goal, move_count := 2147483646 } 2 3).2 = 1 ∧
      (move_tile (move_tile { board := goal, move_count := 2147483646 } 2 3).1 3 3).2 = 1 ∧
      (move_tile (move_tile { board := goal, move_count := 2147483646 } 2 3).1 3 3).1.move_count
        = -2147483648 ∧
      ¬((move_tile (move_tile { board := goal, move_count := 2147483646 } 2 3).1 3 3).1.move_count
          = 2147483646 + 2) := by
  decide

/-! ## `check_win` -/

theorem ite_zero_eq_one (c : Prop) [Decidable c] (t : Int) :
    ((if c then t else 0) = 1) ↔ (c ∧ t = 1) := by
  split <;> simp [*]

theorem check_win_loop_zero_or_one (b : Board) (l : List (Fin 4 × Fin 4)) (counter : Int) :
    check_win_loop b l counter = 1 ∨ check_win_loop b l counter = 0 := by
  induction l generalizing counter with
  | nil => left; rfl
  | cons p rest ih =>
    unfold check_win_loop
    split
    · split
      · right; rfl
      · exact ih _
    · split
      · right; rfl
      · exact ih _

/-- C7: for every board, `check_win` returns 1 if and only if every cell other than
(row 3, column 3) holds `row*4 + col + 1` and the cell at (row 3, column 3) holds 0, and
returns 0 otherwise; it returns 1 on `[[1,2,3,4],[5,6,7,8],[9,10,11,12],[13,14,15,0]]` and 0 on
the same board with 14 and 15 swapped. -/
theorem check_win_iff_goal (b : Board) :
    (check_win b = 1 ↔
      ((∀ y x : Fin 4, ¬(y = 3 ∧ x = 3) → b y x = (y.val : Int) * 4 + (x.val : Int) + 1) ∧
        b 3 3 = 0)) ∧
    (check_win b = 1 ∨ check_win b = 0) ∧
    check_win (Board.ofList [1, 2, 3, 4, 5, 6, 7, 8, 9, 10, 11, 12, 13, 14, 15, 0]) = 1 ∧
    check_win (Board.ofList [1, 2, 3, 4, 5, 6, 7, 8, 9, 10, 11, 12, 13, 15, 14, 0]) = 0 := by
  refine ⟨?_, ?_, by decide, by decide⟩
  · simp only [check_win, cells_eq, check_win_loop, Fin.forall_fin_succ]
    simp [ite_zero_eq_one]
    tauto
  · exact check_win_loop_zero_or_one b cells 1

/-! ## The board-click branch of `main` -/

/-- C10 (the code at the failing input): a press at pixel `(10, 100)` is below the header and
lies in the left window padding, left of every tile that `draw_board` paints; the handler
computes `tile_x = (10 - 20) / 84 = 0` and `tile_y = (100 - 80) / 84 = 0`, both pass the range
validation, and the press is forwarded to `move_tile` as cell `(0, 0)` although the pixel is
outside that cell's slot (`20 + 84*0 ≤ 10` fails). -/
theorem clicked_tile_in_left_padding :
    HEADER_HEIGHT ≤ 100 ∧ clicked_tile 10 100 = some (0, 0) ∧
      ¬(WINDOW_PADDING + (TILE_SIZE + BORDER) * 0 ≤ 10) := by
  decide

/-- C8: on a board that holds each of 0..15 exactly once, every call `move_tile(x, y)` that
returns 1 leaves the parity `(inversions + empty_row) % 2` computed by `is_solvable` unchanged,
so `is_solvable` returns the same result before and after the move. -/
theorem move_tile_preserves_parity (s : State) (hv : ValidBoard s.board) (x y : Int)
    (hr : (move_tile s x y).2 = 1) (u1 u2 : Int) :
    solvability_parity u1 (move_tile s x y).1.board = solvability_parity u2 s.board ∧
    is_solvable u1 (move_tile s x y).1.board = is_solvable u2 s.board := by
  obtain ⟨ey, ex, he⟩ := valid_empty hv
  rcases move_tile_cases s he x y with h | ⟨fy, fx, _, _, ha, h⟩
  · rw [h] at hr; simp at hr
  · rw [h]
    exact ⟨parity_slide hv he ha u1 u2, is_solvable_slide hv he ha u1 u2⟩

theorem move_tile_preserves_parity_witness :
    ValidBoard goal ∧ (move_tile { board := goal, move_count := 0 } 3 2).2 = 1 ∧
      (solvability_parity 0 (move_tile { board := goal, move_count := 0 } 3 2).1.board
          = solvability_parity 0 goal ∧
       is_solvable 0 (move_tile { board := goal, move_count := 0 } 3 2).1.board
          = is_solvable 0 goal) :=
  ⟨by decide, by decide,
    move_tile_preserves_parity { board := goal, move_count := 0 } (by decide) 3 2 (by decide) 0 0⟩

/-- C4: for every stream of `rand()` results (every finite sequence of draws is a prefix of
one, and a run consumes at most 599 draws), `shuffle_board` run on the board produced by
`initialize_board` yields a board that holds each of 0..15 exactly once and on which
`is_solvable` returns true. -/
theorem shuffle_board_valid_and_solvable (rand : Nat → Nat) (uninit uninit2 : Int)
    (b0 : Board) :
    ValidBoard (shuffle_board rand uninit (initialize_board b0)) ∧
    is_solvable uninit2 (shuffle_board rand uninit (initialize_board b0)) = true := by
  rw [initialize_board_eq]
  have key := shuffle_loop_spec rand 300 0 0 goal 3 3 (by omega) goal_valid goal_emptyAt
  have e3 : (((3 : Fin 4).val : Nat) : Int) = 3 := rfl
  rw [e3] at key
  have hs : ∀ u : Int, is_solvable u (shuffle_loop rand 0 0 goal 3 3) = true := by
    intro u
    unfold is_solvable
    rw [key.2 u u]
    exact goal_solvable u
  unfold shuffle_board
  simp only [hs uninit, Bool.not_true, Bool.false_eq_true, if_false]
  exact ⟨key.1, hs uninit2⟩

/-! ## Solvable boards are exactly the reachable ones -/

theorem swapped_not_solvable (uninit : Int) :
    is_solvable uninit (Board.ofList (swapLast2 solvedTiles ++ [0])) = false := by
  have hv : ValidBoard (Board.ofList (swapLast2 solvedTiles ++ [0])) := by decide
  have he : EmptyAt (Board.ofList (swapLast2 solvedTiles ++ [0])) 3 3 :=
    emptyAt_of_valid hv (by decide)
  unfold is_solvable
  rw [solvability_parity_eq he]
  decide

theorem vals_last_zero {c : Board} (hc : c 3 3 = 0) :
    ∃ l : List Int, l.length = 15 ∧ c.vals = l ++ [0] := by
  refine ⟨c.vals.take 15, ?_, ?_⟩
  · simp [vals_eq]
  · rw [vals_eq, hc]
    rfl

theorem slides_goal_of_solvable {b : Board} (hv : ValidBoard b) (uninit : Int)
    (hs : is_solvable uninit b = true) : Slides goal b := by
  obtain ⟨ey, ex, he⟩ := valid_empty hv
  obtain ⟨c, hbc, hc0⟩ := slides_to_corner _ b ey ex le_rfl hv he
  have hvc : ValidBoard c := slides_valid hbc hv
  obtain ⟨l, hl, hvals⟩ := vals_last_zero hc0
  have hcl : Board.ofList (l ++ [0]) = c := by rw [← hvals, ofList_vals]
  have hperm : l.Perm solvedTiles := by
    have h1 : allValues.Perm (l ++ [0]) := hvals ▸ (valid_iff_perm c).1 hvc
    have h2 : allValues = 0 :: solvedTiles := by decide
    rw [h2] at h1
    have h3 : (l ++ [0]).Perm (0 :: l) := List.perm_append_singleton 0 l
    exact (List.Perm.cons_inv (h1.trans h3)).symm
  have hvl : ValidBoard (Board.ofList (l ++ [0])) := by rw [hcl]; exact hvc
  rcases sort_by_rotations solvedTiles l (by decide) hperm with h | h
  · have h4 := slides_rotStar h hl hvl
    rw [hcl] at h4
    exact slides_symm (hbc.trans h4)
  · have h4 := slides_rotStar h hl hvl
    rw [hcl] at h4
    have h5 := slides_solvable (hbc.trans h4) uninit
    rw [hs, swapped_not_solvable] at h5
    cases h5

/-- C6: on a board that holds each of 0..15 exactly once, `is_solvable` returns true if and
only if the board is reachable from the solved board (1..15 in row-major order, 0 in the last
cell) by a finite sequence of successful `move_tile` calls. -/
theorem is_solvable_iff_reachable (b : Board) (hv : ValidBoard b) (uninit : Int) :
    is_solvable uninit b = true ↔ Reachable b := by
  rw [reachable_iff_slides]
  constructor
  · exact slides_goal_of_solvable hv uninit
  · intro h
    rw [slides_solvable h uninit]
    exact goal_solvable uninit

theorem is_solvable_iff_reachable_witness :
    ValidBoard (Board.ofList [1, 2, 3, 4, 5, 6, 7, 8, 9, 10, 11, 0, 13, 14, 15, 12]) ∧
      (is_solvable 0 (Board.ofList [1, 2, 3, 4, 5, 6, 7, 8, 9, 10, 11, 0, 13, 14, 15, 12]) = true ↔
        Reachable (Board.ofList [1, 2, 3, 4, 5, 6, 7, 8, 9, 10, 11, 0, 13, 14, 15, 12])) :=
  ⟨by decide,
    is_solvable_iff_reachable
      (Board.ofList [1, 2, 3, 4, 5, 6, 7, 8, 9, 10, 11, 0, 13, 14, 15, 12]) (by decide) 0⟩

end Puzzle15
